import Mathlib

/-!
# Verification of the torihiki CSV-parsing and FIFO realized-P&L engine

Shallow embedding of `src/lib/parser.ts` and `src/lib/pnl.ts` (the CSV row
parser and the FIFO lot-matching engine), together with the aggregation
function `computeSummary`.  Monetary amounts and quantities are modelled as
exact rationals (`ℚ`); JavaScript strings are Lean `String`s;
nullable fields are `Option`s (a TypeScript `null`/`undefined` "unknown"
value is `none`).  `Array.prototype.sort` is modelled two ways: the
deterministic stable sort `sortFills` (the unique result the ECMAScript
specification mandates when the comparator is consistent on the input),
and the relational contract `allowedSortResult`, which additionally
admits every permutation on inputs where the comparator is inconsistent
— there the standard leaves the sort order implementation-defined.
`String.prototype.localeCompare` on the ISO date strings produced by the
parser is modelled as ordinary lexicographic string comparison.
-/

namespace Torihiki

/-- The `side` field of a normalized fill: `"BUY" | "SELL" | "OTHER"`. -/
inductive Side where
  | BUY
  | SELL
  | OTHER
deriving DecidableEq, Repr

/-- `NormalizedFill` from `src/lib/types.ts`: one parsed execution row.
`fees`/`tax` are `none` when unknown; `accountType` is `none` when absent. -/
structure NormalizedFill where
  tradeDate : String
  symbolName : String
  symbolCode : String
  market : Option String := none
  side : Side
  qty : ℚ
  price : ℚ
  fees : Option ℚ := none
  tax : Option ℚ := none
  accountType : Option String := none
  deliveryDate : Option String := none
  deliveryAmount : Option ℚ := none
  raw : List (String × String) := []
deriving DecidableEq, Repr

/-- `FifoLot` from `src/lib/types.ts`: an unconsumed unit of buy quantity. -/
structure FifoLot where
  qty : ℚ
  price : ℚ
  fees : Option ℚ
deriving DecidableEq, Repr

/-- `OpeningPosition` from `src/lib/types.ts` (the `id` field plays no role
in the engine and is kept only for fidelity). -/
structure OpeningPosition where
  id : String := ""
  symbolCode : String
  symbolName : String
  qty : ℚ
  avgCost : ℚ
  accountType : String
deriving DecidableEq, Repr

/-- The reason code attached to a trade whose P&L is null. -/
inductive NullReason where
  | UNKNOWN_COST
deriving DecidableEq, Repr

/-- `RealizedTrade` from `src/lib/types.ts`.  The `side` field is constantly
`"SELL"` in the source and is omitted. -/
structure RealizedTrade where
  tradeDate : String
  symbolCode : String
  symbolName : String
  qty : ℚ
  sellPrice : ℚ
  buyPriceAvg : Option ℚ
  fees : Option ℚ
  tax : Option ℚ
  realizedPnl : Option ℚ
  reasonIfNull : Option NullReason
  feesEstimated : Bool
  accountType : Option String
deriving DecidableEq, Repr

/-- One entry of the `missingCostSymbols` diagnostic list. -/
structure MissingCost where
  symbolCode : String
  symbolName : String
  shortQty : ℚ
  accountType : String
deriving DecidableEq, Repr

/-- Lexicographic comparison of character lists by code point. -/
def charsCmp : List Char → List Char → Int
  | [], [] => 0
  | [], _ :: _ => -1
  | _ :: _, [] => 1
  | a :: as, b :: bs => if a < b then -1 else if b < a then 1 else charsCmp as bs

/-- Model of the JavaScript comparator result of
`a.localeCompare(b)` on the ISO date strings the parser produces:
lexicographic string comparison returning -1/0/1. -/
def strCmp (a b : String) : Int :=
  charsCmp a.toList b.toList

/-! ## Row parser (`src/lib/parser.ts`) -/

/-- Whitespace for the model of `String.prototype.trim` (ASCII whitespace
plus the no-break, ideographic and BOM spaces JavaScript also trims). -/
def wsChar (c : Char) : Bool :=
  c = ' ' ∨ c = '\t' ∨ c = '\n' ∨ c = '\r' ∨ c = '\x0b' ∨ c = '\x0c' ∨
    c = ' ' ∨ c = '　' ∨ c = '﻿'

/-- Drop the whitespace at both ends of a character list. -/
def trimChars (cs : List Char) : List Char :=
  ((cs.dropWhile wsChar).reverse.dropWhile wsChar).reverse

/-- Model of `String.prototype.trim`. -/
def jsTrim (s : String) : String :=
  String.mk (trimChars s.toList)

/-- Model of `text.split(/\r?\n/)`: split at each `\n`, consuming one
`\r` immediately before it; a `\r` not followed by `\n` is an ordinary
character. -/
def splitLinesCore : List Char → List (List Char)
  | [] => [[]]
  | '\r' :: '\n' :: cs => [] :: splitLinesCore cs
  | '\n' :: cs => [] :: splitLinesCore cs
  | c :: cs =>
    match splitLinesCore cs with
    | [] => [[c]]
    | l :: ls => (c :: l) :: ls

/-- The lines of the input text. -/
def splitLines (text : String) : List String :=
  (splitLinesCore text.toList).map String.mk

/-- The character loop of `parseCSVLine`: `inQuotes` is the quoting state
and `cur` the accumulated current field.  A `""` inside a quoted field
unescapes to a literal `"`; each completed field is trimmed. -/
def csvFields : List Char → Bool → List Char → List String
  | [], _, cur => [String.mk (trimChars cur)]
  | '"' :: '"' :: cs, true, cur => csvFields cs true (cur ++ ['"'])
  | '"' :: cs, true, cur => csvFields cs false cur
  | c :: cs, true, cur => csvFields cs true (cur ++ [c])
  | '"' :: cs, false, cur => csvFields cs true cur
  | ',' :: cs, false, cur => String.mk (trimChars cur) :: csvFields cs false []
  | c :: cs, false, cur => csvFields cs false (cur ++ [c])

/-- `parseCSVLine` from `src/lib/parser.ts`. -/
def parseCSVLine (line : String) : List String :=
  csvFields line.toList false []

/-- `isHeaderRow` from `src/lib/parser.ts`: the four required column names
must all be present. -/
def isHeaderRow (fields : List String) : Bool :=
  ["約定日", "銘柄コード", "約定数量", "約定単価"].all fun h => fields.contains h

/-- ASCII digit (the `\d` class of the date regular expression). -/
def isDigitCh (c : Char) : Bool :=
  '0' ≤ c ∧ c ≤ '9'

/-- Date separator (the `[/\-.]` class of the date regular expression). -/
def isSepCh (c : Char) : Bool :=
  c = '/' ∨ c = '-' ∨ c = '.'

/-- Decimal value of a digit string (`parseInt(·, 10)` on an all-digit
string). -/
def digitsVal (ds : List Char) : Nat :=
  ds.foldl (fun a c => a * 10 + (c.toNat - '0'.toNat)) 0

/-- The cleaning step of `parseJapaneseDate`: replace every `年`/`月` by
`/`, remove the first `日` (the regular expression has no global flag), and
trim. -/
def cleanDate (s : String) : List Char :=
  trimChars (removeFirstDay (s.toList.map fun c => if c = '年' ∨ c = '月' then '/' else c))
where
  /-- Remove the first occurrence of `日`. -/
  removeFirstDay : List Char → List Char
    | [] => []
    | c :: cs => if c = '日' then cs else c :: removeFirstDay cs

/-- Deterministic model of matching
`^(\d{2,4})[/\-.](\d{1,2})[/\-.](\d{1,2})$`: because the separators are not
digits, the regular expression matches exactly when the string decomposes
into a maximal 2-4-digit run, a separator, a maximal 1-2-digit run, a
separator, and a maximal 1-2-digit run ending the string; the three digit
groups are returned. -/
def matchYMD (cs : List Char) : Option (List Char × List Char × List Char) :=
  let y := cs.takeWhile isDigitCh
  let r1 := cs.dropWhile isDigitCh
  if 2 ≤ y.length ∧ y.length ≤ 4 then
    match r1 with
    | s1 :: r2 =>
      if isSepCh s1 then
        let m := r2.takeWhile isDigitCh
        let r3 := r2.dropWhile isDigitCh
        if 1 ≤ m.length ∧ m.length ≤ 2 then
          match r3 with
          | s2 :: r4 =>
            if isSepCh s2 then
              let d := r4.takeWhile isDigitCh
              let r5 := r4.dropWhile isDigitCh
              if 1 ≤ d.length ∧ d.length ≤ 2 ∧ r5 = [] then some (y, m, d)
              else none
            else none
          | [] => none
        else none
      else none
    | [] => none
  else none

/-- `String(n).padStart(2, "0")` for the month/day numbers. -/
def pad2 (n : Nat) : String :=
  if n < 10 then "0" ++ toString n else toString n

/-- `parseJapaneseDate` from `src/lib/parser.ts`. -/
def parseJapaneseDate (dateStr : String) : Option String :=
  match matchYMD (cleanDate dateStr) with
  | none => none
  | some (ys, ms, ds) =>
    let year0 := digitsVal ys
    let year := if year0 < 100 then year0 + 2000 else year0
    let month := digitsVal ms
    let day := digitsVal ds
    if month < 1 ∨ month > 12 ∨ day < 1 ∨ day > 31 then none
    else some (toString year ++ "-" ++ pad2 month ++ "-" ++ pad2 day)

/-- Model of JavaScript `Number(·)` on the non-empty, trimmed strings
`parseNumber` feeds it, restricted to the decimal-literal fragment
(optional sign, integer/fraction digits, optional exponent); literal forms
outside this fragment are not exercised by the repository's data and map to
`none` (NaN). -/
def jsNumber (cs : List Char) : Option ℚ :=
  let sgn : ℚ × List Char :=
    match cs with
    | '-' :: r => (-1, r)
    | '+' :: r => (1, r)
    | _ => (1, cs)
  let ip := sgn.2.takeWhile isDigitCh
  let r1 := sgn.2.dropWhile isDigitCh
  let fp : List Char × List Char :=
    match r1 with
    | '.' :: r => (r.takeWhile isDigitCh, r.dropWhile isDigitCh)
    | _ => ([], r1)
  if ip.length = 0 ∧ fp.1.length = 0 then none
  else
    let mantissa : ℚ := (digitsVal ip : ℚ) + (digitsVal fp.1 : ℚ) / (10 : ℚ) ^ fp.1.length
    match fp.2 with
    | [] => some (sgn.1 * mantissa)
    | e :: r3 =>
      if e = 'e' ∨ e = 'E' then
        let es : Bool × List Char :=
          match r3 with
          | '-' :: r => (true, r)
          | '+' :: r => (false, r)
          | _ => (false, r3)
        let ed := es.2.takeWhile isDigitCh
        let r5 := es.2.dropWhile isDigitCh
        if ed.length = 0 ∨ r5 ≠ [] then none
        else
          let p : ℚ := (10 : ℚ) ^ digitsVal ed
          some (sgn.1 * mantissa * (if es.1 then p⁻¹ else p))
      else none

/-- `parseNumber` from `src/lib/parser.ts`: the unknown markers (empty,
`--`, full-width dash, `-`) yield `null`; otherwise commas and `円` are
removed, the result trimmed, and an empty or non-numeric remainder yields
`null`. -/
def parseNumber (value : String) : Option ℚ :=
  if value = "" ∨ value = "--" ∨ value = "―" ∨ value = "-" then none
  else
    let cleaned := jsTrim (String.mk (value.toList.filter fun c => ¬(c = ',' ∨ c = '円')))
    if cleaned = "" then none
    else jsNumber cleaned.toList

/-- `determineSide` from `src/lib/parser.ts`. -/
def determineSide (tradeStr : String) : Side :=
  if tradeStr.toList.contains '買' then Side.BUY
  else if tradeStr.toList.contains '売' then Side.SELL
  else Side.OTHER

/-- `raw[h] ?? ""` where `raw` is built by
`headers.forEach((h, idx) => raw[h] = fields[idx] ?? "")`: the last
occurrence of a duplicated header wins. -/
def rawGet (headers fields : List String) (h : String) : String :=
  match (headers.enum.filter fun p => p.2 = h).getLast? with
  | some p => fields.getD p.1 ""
  | none => ""

/-- `raw[h] ?? undefined`: `none` when the column is absent. -/
def rawGetOpt (headers fields : List String) (h : String) : Option String :=
  if headers.contains h then some (rawGet headers fields h) else none

/-- Outcome of one data row of `parseCSV`: skipped blank line, rejected row
(with its error message), or an accepted fill. -/
inductive RowResult where
  | blank
  | bad (err : String)
  | ok (fill : NormalizedFill)
deriving DecidableEq, Repr

/-- The body of the data-row loop of `parseCSV` for the line with 0-based
index `idx` (error messages show `idx + 1`), translated validation by
validation. -/
def parseRow (headers : List String) (idx : Nat) (rawLine : String) : RowResult :=
  let line := jsTrim rawLine
  if line = "" then RowResult.blank
  else
    let fields := parseCSVLine line
    if fields.length < headers.length then
      RowResult.bad ("行 " ++ toString (idx + 1) ++ ": 列数不足 (" ++
        toString fields.length ++ "/" ++ toString headers.length ++ ")")
    else
      match parseJapaneseDate (rawGet headers fields "約定日") with
      | none =>
        RowResult.bad ("行 " ++ toString (idx + 1) ++ ": 約定日を解析できません: \"" ++
          rawGet headers fields "約定日" ++ "\"")
      | some tradeDate =>
        let symbolName := rawGet headers fields "銘柄"
        let symbolCode := rawGet headers fields "銘柄コード"
        if symbolCode = "" then
          RowResult.bad ("行 " ++ toString (idx + 1) ++ ": 銘柄コードが空です")
        else
          match parseNumber (rawGet headers fields "約定数量") with
          | none =>
            RowResult.bad ("行 " ++ toString (idx + 1) ++ ": 約定数量が不正: \"" ++
              rawGet headers fields "約定数量" ++ "\"")
          | some qty =>
            if qty ≤ 0 then
              RowResult.bad ("行 " ++ toString (idx + 1) ++ ": 約定数量が不正: \"" ++
                rawGet headers fields "約定数量" ++ "\"")
            else
              match parseNumber (rawGet headers fields "約定単価") with
              | none =>
                RowResult.bad ("行 " ++ toString (idx + 1) ++ ": 約定単価が不正: \"" ++
                  rawGet headers fields "約定単価" ++ "\"")
              | some price =>
                if price < 0 then
                  RowResult.bad ("行 " ++ toString (idx + 1) ++ ": 約定単価が不正: \"" ++
                    rawGet headers fields "約定単価" ++ "\"")
                else
                  RowResult.ok
                    { tradeDate := tradeDate
                      symbolName := symbolName
                      symbolCode := symbolCode
                      market := rawGetOpt headers fields "市場"
                      side := determineSide (rawGet headers fields "取引")
                      qty := qty
                      price := price
                      fees := parseNumber (rawGet headers fields "手数料/諸経費等")
                      tax := parseNumber (rawGet headers fields "税額")
                      accountType := rawGetOpt headers fields "預り"
                      deliveryDate := parseJapaneseDate (rawGet headers fields "受渡日")
                      deliveryAmount := parseNumber (rawGet headers fields "受渡金額/決済損益")
                      raw := headers.enum.map fun p => (p.2, fields.getD p.1 "") }

/-- `ParseResult` from `src/lib/types.ts`. -/
structure ParseResult where
  fills : List NormalizedFill
  totalRows : Nat
  successRows : Nat
  failedRows : Nat
  unknownFieldCount : Nat
  errors : List String
deriving DecidableEq, Repr

/-- The data-row loop of `parseCSV` over the lines after the header, where
`idx` is the 0-based index of the first of `rows` in the whole input. -/
def rowsLoop (headers : List String) : Nat → List String → ParseResult
  | _, [] => ⟨[], 0, 0, 0, 0, []⟩
  | idx, l :: ls =>
    let rest := rowsLoop headers (idx + 1) ls
    match parseRow headers idx l with
    | RowResult.blank => rest
    | RowResult.bad e =>
      ⟨rest.fills, rest.totalRows + 1, rest.successRows, rest.failedRows + 1,
        rest.unknownFieldCount, e :: rest.errors⟩
    | RowResult.ok f =>
      ⟨f :: rest.fills, rest.totalRows + 1, rest.successRows + 1, rest.failedRows,
        rest.unknownFieldCount +
          ((if f.fees = none then 1 else 0) + (if f.tax = none then 1 else 0)),
        rest.errors⟩

/-- The header-scan loop of `parseCSV`: first line whose fields form a
header row, returned with its 0-based index and the following lines. -/
def findHeader : Nat → List String → Option (Nat × List String × List String)
  | _, [] => none
  | i, l :: ls =>
    let fields := parseCSVLine l
    if isHeaderRow fields then some (i, fields, ls)
    else findHeader (i + 1) ls

/-- Stable insertion by trade date, for the final
`fills.sort((a, b) => a.tradeDate.localeCompare(b.tradeDate))`. -/
def insertByDate (x : NormalizedFill) : List NormalizedFill → List NormalizedFill
  | [] => [x]
  | y :: ys =>
    if strCmp x.tradeDate y.tradeDate < 0 then x :: y :: ys else y :: insertByDate x ys

/-- Model of the final stable sort of the accepted fills by trade date. -/
def sortByDate (fills : List NormalizedFill) : List NormalizedFill :=
  fills.foldl (fun acc x => insertByDate x acc) []

/-- `parseCSV` from `src/lib/parser.ts`. -/
def parseCSV (text : String) : ParseResult :=
  match findHeader 0 (splitLines text) with
  | none =>
    ⟨[], 0, 0, 0, 0,
      ["ヘッダ行が見つかりません。「約定日」「銘柄コード」「約定数量」「約定単価」を含む行が必要です。"]⟩
  | some (hi, headers, rest) =>
    let r := rowsLoop headers (hi + 1) rest
    { r with fills := sortByDate r.fills }

/-! ## FIFO matching engine (`src/lib/pnl.ts`) -/

/-- `makeKey` from `src/lib/pnl.ts`:
`` `${symbolCode}::${accountType ?? ""}` ``. -/
def makeKey (symbolCode : String) (accountType : Option String) : String :=
  symbolCode ++ "::" ++ accountType.getD ""

/-- The partition key of a fill. -/
def fillKey (f : NormalizedFill) : String :=
  makeKey f.symbolCode f.accountType

/-- The fill comparator passed to `sort` in `calculateRealizedPnl`
(`src/lib/pnl.ts`): date ascending, then BUY before SELL on equal dates. -/
def fillCmp (a b : NormalizedFill) : Int :=
  let dateCmp := strCmp a.tradeDate b.tradeDate
  if dateCmp ≠ 0 then dateCmp
  else if a.side = Side.BUY ∧ b.side = Side.SELL then -1
  else if a.side = Side.SELL ∧ b.side = Side.BUY then 1
  else 0

/-- Stable insertion: place `x` immediately before the first element `y`
with `fillCmp x y < 0` (so `x` goes after every element it compares equal
to, which is exactly stable-sort behaviour). -/
def insertFill (x : NormalizedFill) : List NormalizedFill → List NormalizedFill
  | [] => [x]
  | y :: ys => if fillCmp x y < 0 then x :: y :: ys else y :: insertFill x ys

/-- Stable sort by the fill comparator.  This is the result ECMAScript
prescribes for `[...fills].sort(comparator)` in `calculateRealizedPnl`
exactly when the comparator is consistent on the input (see
`fillCmpConsistentOn`): a stable sort with a consistent comparator has a
unique result.  On inputs where the comparator is inconsistent the
standard leaves the order implementation-defined; `allowedSortResult`
states that contract. -/
def sortFills (fills : List NormalizedFill) : List NormalizedFill :=
  fills.foldl (fun acc x => insertFill x acc) []

/-- Consistency of the fill comparator on an input, restricted to the one
ECMAScript clause `fillCmp` can actually violate: ties must be transitive.
`fillCmp` is total and antisymmetric by construction, but a same-date
OTHER fill ties with both a BUY and a SELL of that date while BUY and
SELL do not tie, so tie-transitivity fails exactly when some trade date
carries BUY, SELL and OTHER fills simultaneously. -/
def fillCmpConsistentOn (fills : List NormalizedFill) : Prop :=
  ∀ a ∈ fills, ∀ b ∈ fills, ∀ c ∈ fills,
    fillCmp a b = 0 → fillCmp b c = 0 → fillCmp a c = 0

/-- The ECMAScript contract of `[...fills].sort(comparator)`: the result
is a permutation of the input, and when the comparator is consistent on
the input it is the unique stable sorted permutation `sortFills fills`.
With an inconsistent comparator the standard makes the sort order
implementation-defined (real engines' sorts can leave a same-date
`[SELL, OTHER, BUY]` run untouched), so any permutation is an allowed
result. -/
def allowedSortResult (fills out : List NormalizedFill) : Prop :=
  out.Perm fills ∧ (fillCmpConsistentOn fills → out = sortFills fills)

/-- The SELL matching loop of `calculateRealizedPnl`: consume lots from the
front of the queue while quantity remains, taking
`min(remainingQty, lot.qty)` from the front lot, accumulating
`lot.price * matchQty`, and dropping a lot once its quantity reaches zero.
Returns `(remaining unmatched qty, accumulated buy cost, leftover lots)`. -/
def consume (remainingQty : ℚ) : List FifoLot → ℚ × ℚ × List FifoLot
  | [] => (remainingQty, 0, [])
  | lot :: rest =>
    if remainingQty > 0 then
      let matchQty := min remainingQty lot.qty
      if lot.qty - matchQty ≤ 0 then
        let res := consume (remainingQty - matchQty) rest
        (res.1, lot.price * matchQty + res.2.1, res.2.2)
      else
        (remainingQty - matchQty, lot.price * matchQty,
          { lot with qty := lot.qty - matchQty } :: rest)
    else (remainingQty, 0, lot :: rest)

/-- Pointwise update of the lot map (`lots.set(key, v)`). -/
def setLots (m : String → List FifoLot) (k : String) (v : List FifoLot) :
    String → List FifoLot :=
  fun k' => if k' = k then v else m k'

/-- Update of `missingCostMap`: if the key is present, add the shortfall to
the existing entry's `shortQty` in place; otherwise append a new entry
(JavaScript `Map` preserves insertion order). -/
def mcBump (k : String) (e : MissingCost) :
    List (String × MissingCost) → List (String × MissingCost)
  | [] => [(k, e)]
  | (k', m) :: rest =>
    if k' = k then (k', { m with shortQty := m.shortQty + e.shortQty }) :: rest
    else (k', m) :: mcBump k e rest

/-- The mutable state threaded through the fill loop of
`calculateRealizedPnl`: the per-key lot queues, the emitted trades and the
missing-cost map. -/
structure EngineState where
  lots : String → List FifoLot
  trades : List RealizedTrade
  missing : List (String × MissingCost)

/-- One iteration of the `for (const fill of sorted)` loop in
`calculateRealizedPnl`. -/
def processFill (st : EngineState) (fill : NormalizedFill) : EngineState :=
  let key := fillKey fill
  match fill.side with
  | Side.BUY =>
    let lots' := setLots st.lots key (st.lots key ++ [⟨fill.qty, fill.price, fill.fees⟩])
    { st with lots := lots' }
  | Side.SELL =>
    let feesEstimated := fill.fees.isNone || fill.tax.isNone
    let res := consume fill.qty (st.lots key)
    let remainingQty := res.1
    let totalBuyCost := res.2.1
    let lots' := setLots st.lots key res.2.2
    let missing' :=
      if remainingQty > 0 then
        mcBump key
          ⟨fill.symbolCode, fill.symbolName, remainingQty,
            fill.accountType.getD ""⟩ st.missing
      else st.missing
    let matchedQty := fill.qty - remainingQty
    let buyPriceAvg : Option ℚ :=
      if matchedQty > 0 then some (totalBuyCost / matchedQty) else none
    let realizedPnl : Option ℚ :=
      if remainingQty > 0 then none
      else some (fill.price * fill.qty - totalBuyCost
        - (fill.fees.getD 0 + fill.tax.getD 0))
    let reasonIfNull : Option NullReason :=
      if remainingQty > 0 then some NullReason.UNKNOWN_COST else none
    let trade : RealizedTrade :=
      ⟨fill.tradeDate, fill.symbolCode, fill.symbolName, fill.qty,
        fill.price, buyPriceAvg, fill.fees, fill.tax, realizedPnl,
        reasonIfNull, feesEstimated, fill.accountType⟩
    { lots := lots', trades := st.trades ++ [trade], missing := missing' }
  | Side.OTHER => st

/-- Initialization of the lot map from the opening positions: each opening
position is prepended (`unshift`) as one lot `(qty, avgCost, fees = 0)` to
its key's queue. -/
def initState (openingPositions : List OpeningPosition) : EngineState :=
  let lots0 := openingPositions.foldl
    (fun m op =>
      setLots m (makeKey op.symbolCode (some op.accountType))
        (⟨op.qty, op.avgCost, some 0⟩ :: m (makeKey op.symbolCode (some op.accountType))))
    (fun _ => [])
  { lots := lots0, trades := [], missing := [] }

/-- Result record of `calculateRealizedPnl`. -/
structure PnlOutput where
  trades : List RealizedTrade
  missingCostSymbols : List MissingCost
deriving DecidableEq, Repr

/-- `calculateRealizedPnl` from `src/lib/pnl.ts`: seed lot queues from the
opening positions, stable-sort the fills by date (BUY before SELL on equal
dates), process each fill in order, and return the trades together with the
values of the missing-cost map in insertion order. -/
def calculateRealizedPnl (fills : List NormalizedFill)
    (openingPositions : List OpeningPosition := []) : PnlOutput :=
  let st := (sortFills fills).foldl processFill (initState openingPositions)
  { trades := st.trades, missingCostSymbols := st.missing.map Prod.snd }

/-- Lookup of a key's entry in the missing-cost map
(`missingCostMap.get(key)`), used to state per-key isolation facts. -/
def mcLookup (m : List (String × MissingCost)) (k : String) : Option MissingCost :=
  (m.find? fun p => p.1 = k).map Prod.snd

/-- The ordering invariant the engine's processing order establishes
between an earlier fill `a` and a later fill `b`: dates are non-decreasing
and a same-date SELL never precedes a same-date BUY. -/
def fillOrd (a b : NormalizedFill) : Prop :=
  strCmp a.tradeDate b.tradeDate ≤ 0 ∧
    (a.tradeDate = b.tradeDate → ¬(a.side = Side.SELL ∧ b.side = Side.BUY))

/-! ## Aggregation (`computeSummary` from `src/lib/pnl.ts`) -/

/-- A JavaScript number result that may be `Infinity` (used only by the
profit factor). -/
inductive JNum where
  | val (q : ℚ)
  | inf
deriving DecidableEq, Repr

/-- `PnlSummary` from `src/lib/types.ts`; `profitFactor` is `none` for the
JavaScript `null` and `some JNum.inf` for `Infinity`. -/
structure PnlSummary where
  totalPnl : ℚ
  winCount : Nat
  loseCount : Nat
  drawCount : Nat
  calculableCount : Nat
  uncalculableCount : Nat
  avgWin : ℚ
  avgLoss : ℚ
  profitFactor : Option JNum
  maxDrawdown : ℚ
  totalProfit : ℚ
  totalLoss : ℚ
deriving DecidableEq, Repr

/-- Stable insertion of a trade by trade date, for the
`calculable.sort((a, b) => a.tradeDate.localeCompare(b.tradeDate))` inside
`computeSummary`. -/
def insertTradeByDate (x : RealizedTrade) : List RealizedTrade → List RealizedTrade
  | [] => [x]
  | y :: ys =>
    if strCmp x.tradeDate y.tradeDate < 0 then x :: y :: ys else y :: insertTradeByDate x ys

/-- Stable sort of trades by trade date. -/
def sortTradesByDate (trades : List RealizedTrade) : List RealizedTrade :=
  trades.foldl (fun acc x => insertTradeByDate x acc) []

/-- The P&L of a trade with `null` read as in the JavaScript non-null
assertion contexts of `computeSummary` (every use site filters on
non-null first). -/
def pnlOf (t : RealizedTrade) : ℚ :=
  t.realizedPnl.getD 0

/-- `computeSummary` from `src/lib/pnl.ts`. -/
def computeSummary (trades : List RealizedTrade) : PnlSummary :=
  let calculable := trades.filter fun t => t.realizedPnl ≠ none
  let uncalculable := trades.filter fun t => t.realizedPnl = none
  let wins := calculable.filter fun t => 0 < pnlOf t
  let losses := calculable.filter fun t => pnlOf t < 0
  let draws := calculable.filter fun t => t.realizedPnl = some 0
  let totalPnl := (calculable.map pnlOf).sum
  let totalProfit := (wins.map pnlOf).sum
  let totalLoss := (losses.map pnlOf).sum
  let avgWin := if 0 < wins.length then totalProfit / wins.length else 0
  let avgLoss := if 0 < losses.length then totalLoss / losses.length else 0
  let profitFactor : Option JNum :=
    if totalLoss ≠ 0 then some (JNum.val |totalProfit / totalLoss|)
    else if 0 < totalProfit then some JNum.inf
    else none
  let scan := (sortTradesByDate calculable).foldl
    (fun (p : ℚ × ℚ × ℚ) t =>
      let c := p.2.2 + pnlOf t
      let peak := if c > p.1 then c else p.1
      let dd := peak - c
      (peak, if dd > p.2.1 then dd else p.2.1, c))
    (0, 0, 0)
  ⟨totalPnl, wins.length, losses.length, draws.length, calculable.length,
    uncalculable.length, avgWin, avgLoss, profitFactor, scan.2.1, totalProfit,
    totalLoss⟩

/-! ## Concrete inputs used by the claim examples and witnesses -/

/-- BUY 100 @ 1000 on 2024-01-10 (C1 example, first lot). -/
def c1buy1 : NormalizedFill :=
  { tradeDate := "2024-01-10", symbolName := "テスト", symbolCode := "1234",
    side := Side.BUY, qty := 100, price := 1000, fees := some 0, tax := some 0,
    accountType := some "特定" }

/-- BUY 100 @ 1500 on 2024-01-11 (C1 example, second lot). -/
def c1buy2 : NormalizedFill := { c1buy1 with tradeDate := "2024-01-11", price := 1500 }

/-- SELL 150 @ 1300 on 2024-01-15 (C1 example). -/
def c1sell : NormalizedFill :=
  { c1buy1 with tradeDate := "2024-01-15", side := Side.SELL, qty := 150, price := 1300 }

/-- A SELL with no available lots (C2 witness input). -/
def c2fill : NormalizedFill :=
  { tradeDate := "2024-01-05", symbolName := "X", symbolCode := "1234",
    side := Side.SELL, qty := 10, price := 100, fees := some 0, tax := some 0 }

/-- The trade `calculateRealizedPnl` emits for `c2fill` alone. -/
def c2trade : RealizedTrade :=
  ⟨"2024-01-05", "1234", "X", 10, 100, none, some 0, some 0, none,
    some NullReason.UNKNOWN_COST, false, none⟩

/-- Same-date SELL listed before the BUY in the input (C3 witness). -/
def c3sell : NormalizedFill :=
  { tradeDate := "2024-01-10", symbolName := "X", symbolCode := "7203",
    side := Side.SELL, qty := 100, price := 1200, fees := some 0, tax := some 0 }

/-- Same-date BUY listed after the SELL in the input (C3 witness). -/
def c3buy : NormalizedFill := { c3sell with side := Side.BUY, price := 1000 }

/-- Same-date OTHER fill sitting between the SELL and the BUY (C3
counterexample input: it makes the comparator inconsistent on the list). -/
def c3other : NormalizedFill := { c3sell with side := Side.OTHER, price := 0 }

/-- BUY under account type `A` (C4 account-isolation example). -/
def c4buy : NormalizedFill :=
  { tradeDate := "2024-01-10", symbolName := "テスト", symbolCode := "1234",
    side := Side.BUY, qty := 100, price := 1000, fees := some 0, tax := some 0,
    accountType := some "A" }

/-- SELL of the same symbol under account type `B` (C4 example). -/
def c4sell : NormalizedFill :=
  { c4buy with
      tradeDate := "2024-01-12", side := Side.SELL, price := 1200, accountType := some "B" }

/-- BUY that fully covers `c6sell` (C6 witness input). -/
def c6buy : NormalizedFill :=
  { tradeDate := "2024-01-10", symbolName := "X", symbolCode := "9984",
    side := Side.BUY, qty := 100, price := 1000, fees := some 0, tax := some 0 }

/-- SELL with unknown fees and tax (C6 witness input). -/
def c6sell : NormalizedFill :=
  { c6buy with
      tradeDate := "2024-01-12", side := Side.SELL, price := 1200, fees := none, tax := none }

/-! ## Helper lemmas -/

theorem mcBump_frame (k : String) (e : MissingCost) (m : List (String × MissingCost))
    (k' : String) (hk : k' ≠ k) :
    mcLookup (mcBump k e m) k' = mcLookup m k' := by
  induction m with
  | nil => simp [mcBump, mcLookup, List.find?, Ne.symm hk]
  | cons p rest ih =>
    obtain ⟨pk, pm⟩ := p
    by_cases hp : pk = k
    · simp [mcBump, hp, mcLookup, List.find?, Ne.symm hk]
    · simp only [mcBump, if_neg hp]
      by_cases hp' : pk = k'
      · simp [mcLookup, List.find?, hp']
      · simp only [mcLookup, List.find?, hp', decide_False] at ih ⊢
        simpa [hp'] using ih

theorem processFill_frame (st : EngineState) (fill : NormalizedFill) (k' : String)
    (hk : k' ≠ fillKey fill) :
    (processFill st fill).lots k' = st.lots k' ∧
      mcLookup (processFill st fill).missing k' = mcLookup st.missing k' := by
  cases hside : fill.side with
  | BUY => simp [processFill, hside, setLots, hk]
  | OTHER => simp [processFill, hside]
  | SELL =>
    constructor
    · simp [processFill, hside, setLots, hk]
    · simp only [processFill, hside]
      by_cases hr : 0 < (consume fill.qty (st.lots (fillKey fill))).1
      · simp [hr, mcBump_frame _ _ _ _ hk]
      · simp [hr]

theorem foldl_frame (fills : List NormalizedFill) (st : EngineState) (k' : String)
    (h : ∀ f ∈ fills, fillKey f ≠ k') :
    (fills.foldl processFill st).lots k' = st.lots k' ∧
      mcLookup (fills.foldl processFill st).missing k' = mcLookup st.missing k' := by
  induction fills generalizing st with
  | nil => exact ⟨rfl, rfl⟩
  | cons f fs ih =>
    have hf : fillKey f ≠ k' := h f (List.mem_cons_self f fs)
    obtain ⟨hl, hm⟩ := processFill_frame st f k' (Ne.symm hf)
    obtain ⟨hl2, hm2⟩ := ih (processFill st f) (fun g hg => h g (List.mem_cons_of_mem f hg))
    exact ⟨hl2.trans hl, hm2.trans hm⟩

theorem foldl_trades_ok (fills : List NormalizedFill) (st : EngineState)
    (hst : ∀ t ∈ st.trades,
      (t.realizedPnl = none ↔ t.reasonIfNull = some NullReason.UNKNOWN_COST)) :
    ∀ t ∈ (fills.foldl processFill st).trades,
      (t.realizedPnl = none ↔ t.reasonIfNull = some NullReason.UNKNOWN_COST) := by
  induction fills generalizing st with
  | nil => exact hst
  | cons f fs ih =>
    refine ih (processFill st f) ?_
    intro t ht
    cases hside : f.side with
    | BUY =>
      simp [processFill, hside] at ht
      exact hst t ht
    | OTHER =>
      simp [processFill, hside] at ht
      exact hst t ht
    | SELL =>
      simp only [processFill, hside] at ht
      rw [List.mem_append] at ht
      rcases ht with ht | ht
      · exact hst t ht
      · simp only [List.mem_singleton] at ht
        subst ht
        by_cases hr : 0 < (consume f.qty (st.lots (fillKey f))).1 <;> simp [hr]

theorem sell_step (st : EngineState) (fill : NormalizedFill)
    (hside : fill.side = Side.SELL) :
    ∃ t, (processFill st fill).trades = st.trades ++ [t] ∧
      (t.realizedPnl = none ↔ 0 < (consume fill.qty (st.lots (fillKey fill))).1) ∧
      (t.reasonIfNull = some NullReason.UNKNOWN_COST ↔
        0 < (consume fill.qty (st.lots (fillKey fill))).1) ∧
      (¬ 0 < (consume fill.qty (st.lots (fillKey fill))).1 →
        t.realizedPnl = some (fill.price * fill.qty
          - (consume fill.qty (st.lots (fillKey fill))).2.1
          - fill.fees.getD 0 - fill.tax.getD 0)) ∧
      (t.feesEstimated = true ↔ (fill.fees = none ∨ fill.tax = none)) := by
  simp only [processFill, hside]
  refine ⟨_, rfl, ?_, ?_, ?_, ?_⟩
  · by_cases hr : 0 < (consume fill.qty (st.lots (fillKey fill))).1 <;> simp [hr]
  · by_cases hr : 0 < (consume fill.qty (st.lots (fillKey fill))).1 <;> simp [hr]
  · intro hr
    simp [hr]
    ring
  · simp [Option.isNone_iff_eq_none]

theorem initState_lots (ops : List OpeningPosition) (k : String) :
    (initState ops).lots k
      = ((ops.filter fun op => makeKey op.symbolCode (some op.accountType) = k).map
          fun op => (⟨op.qty, op.avgCost, some 0⟩ : FifoLot)).reverse := by
  suffices h : ∀ (m : String → List FifoLot),
      (ops.foldl (fun m op => setLots m (makeKey op.symbolCode (some op.accountType))
        (⟨op.qty, op.avgCost, some 0⟩ :: m (makeKey op.symbolCode (some op.accountType)))) m) k
      = ((ops.filter fun op => makeKey op.symbolCode (some op.accountType) = k).map
          fun op => (⟨op.qty, op.avgCost, some 0⟩ : FifoLot)).reverse ++ m k by
    simpa [initState] using h (fun _ => [])
  induction ops with
  | nil => intro m; simp
  | cons o os ih =>
    intro m
    by_cases ho : makeKey o.symbolCode (some o.accountType) = k
    · simp [List.foldl_cons, ih, setLots, ho, List.filter_cons]
    · simp [List.foldl_cons, ih, setLots, ho, Ne.symm ho, List.filter_cons]

theorem consume_drop_front (r : ℚ) (lot : FifoLot) (rest : List FifoLot)
    (hr : 0 < r) (hm : lot.qty ≤ r) :
    consume r (lot :: rest)
      = ((consume (r - lot.qty) rest).1,
         lot.price * lot.qty + (consume (r - lot.qty) rest).2.1,
         (consume (r - lot.qty) rest).2.2) := by
  simp [consume, hr, min_eq_right hm]

theorem consume_shrink_front (r : ℚ) (lot : FifoLot) (rest : List FifoLot)
    (hr : 0 < r) (hm : r < lot.qty) :
    consume r (lot :: rest) = (0, lot.price * r, ⟨lot.qty - r, lot.price, lot.fees⟩ :: rest) := by
  have h1 : min r lot.qty = r := min_eq_left hm.le
  have h2 : ¬ lot.qty - r ≤ 0 := by linarith
  simp [consume, hr, h1, h2]

theorem insertByDate_length (x : NormalizedFill) (l : List NormalizedFill) :
    (insertByDate x l).length = l.length + 1 := by
  induction l with
  | nil => rfl
  | cons y ys ih =>
    by_cases h : strCmp x.tradeDate y.tradeDate < 0 <;> simp [insertByDate, h, ih]

theorem insertByDate_countP (p : NormalizedFill → Bool) (x : NormalizedFill)
    (l : List NormalizedFill) :
    (insertByDate x l).countP p = l.countP p + (if p x then 1 else 0) := by
  induction l with
  | nil => simp [insertByDate, List.countP_cons]
  | cons y ys ih =>
    by_cases h : strCmp x.tradeDate y.tradeDate < 0 <;>
        simp [insertByDate, h, ih, List.countP_cons] <;> ring

theorem sortByDate_length (fills : List NormalizedFill) :
    (sortByDate fills).length = fills.length := by
  suffices h : ∀ acc : List NormalizedFill,
      (fills.foldl (fun acc x => insertByDate x acc) acc).length
        = fills.length + acc.length by
    simpa using h []
  induction fills with
  | nil => intro acc; simp
  | cons f fs ih =>
    intro acc
    simp only [List.foldl_cons, ih, insertByDate_length, List.length_cons]
    omega

theorem sortByDate_countP (p : NormalizedFill → Bool) (fills : List NormalizedFill) :
    (sortByDate fills).countP p = fills.countP p := by
  suffices h : ∀ acc : List NormalizedFill,
      (fills.foldl (fun acc x => insertByDate x acc) acc).countP p
        = fills.countP p + acc.countP p by
    simpa using h []
  induction fills with
  | nil => intro acc; simp
  | cons f fs ih =>
    intro acc
    simp only [List.foldl_cons, ih, insertByDate_countP, List.countP_cons]
    omega

theorem rowsLoop_counts (headers : List String) (idx : Nat) (rows : List String) :
    (rowsLoop headers idx rows).totalRows
        = (rowsLoop headers idx rows).successRows + (rowsLoop headers idx rows).failedRows ∧
      (rowsLoop headers idx rows).fills.length = (rowsLoop headers idx rows).successRows ∧
      (rowsLoop headers idx rows).errors.length = (rowsLoop headers idx rows).failedRows ∧
      (rowsLoop headers idx rows).unknownFieldCount
        = (rowsLoop headers idx rows).fills.countP (fun f => f.fees = none)
          + (rowsLoop headers idx rows).fills.countP (fun f => f.tax = none) := by
  induction rows generalizing idx with
  | nil => simp [rowsLoop]
  | cons l ls ih =>
    obtain ⟨h1, h2, h3, h4⟩ := ih (idx + 1)
    cases h : parseRow headers idx l with
    | blank => simpa [rowsLoop, h] using ⟨h1, h2, h3, h4⟩
    | bad e =>
      simp [rowsLoop, h, h1, h2, h3, h4]
      omega
    | ok f =>
      simp [rowsLoop, h, h1, h2, h3, h4, List.countP_cons]
      omega

theorem filter_pnl_map (P : ℚ → Prop) [DecidablePred P] (trades : List RealizedTrade) :
    (((trades.filter fun t => t.realizedPnl ≠ none).filter fun t => P (pnlOf t)).map pnlOf)
      = (trades.filterMap RealizedTrade.realizedPnl).filter (fun q => P q) := by
  induction trades with
  | nil => rfl
  | cons t ts ih =>
    cases h : t.realizedPnl with
    | none =>
      simpa [List.filter_cons, List.filterMap_cons, h] using ih
    | some q =>
      by_cases hq : P q
      · simpa [List.filter_cons, List.filterMap_cons, h, pnlOf, hq] using ih
      · simpa [List.filter_cons, List.filterMap_cons, h, pnlOf, hq] using ih


theorem charsCmp_eq_zero_iff (a b : List Char) : charsCmp a b = 0 ↔ a = b := by
  induction a generalizing b with
  | nil => cases b <;> simp [charsCmp]
  | cons x xs ih =>
    cases b with
    | nil => simp [charsCmp]
    | cons y ys =>
      by_cases h1 : x < y
      · simp [charsCmp, h1, ne_of_lt h1]
      · by_cases h2 : y < x
        · simp [charsCmp, h1, h2, (ne_of_lt h2).symm]
        · have hxy : x = y := le_antisymm (not_lt.mp h2) (not_lt.mp h1)
          simp [charsCmp, h1, h2, hxy, ih]

theorem charsCmp_swap (a b : List Char) : charsCmp b a = -charsCmp a b := by
  induction a generalizing b with
  | nil => cases b <;> simp [charsCmp]
  | cons x xs ih =>
    cases b with
    | nil => simp [charsCmp]
    | cons y ys =>
      by_cases h1 : x < y
      · have h2 : ¬ y < x := lt_asymm h1
        simp [charsCmp, h1, h2]
      · by_cases h2 : y < x
        · simp [charsCmp, h1, h2]
        · simp [charsCmp, h1, h2, ih]

theorem charsCmp_lt_trans {a b c : List Char}
    (hab : charsCmp a b < 0) (hbc : charsCmp b c < 0) : charsCmp a c < 0 := by
  induction a generalizing b c with
  | nil =>
    cases b with
    | nil => simp [charsCmp] at hab
    | cons y ys =>
      cases c with
      | nil => simp [charsCmp] at hbc
      | cons z zs => simp [charsCmp]
  | cons x xs ih =>
    cases b with
    | nil => simp [charsCmp] at hab
    | cons y ys =>
      cases c with
      | nil => simp [charsCmp] at hbc
      | cons z zs =>
        by_cases hxy : x < y
        · -- x < y; need x < z or handle y vs z
          by_cases hyz : y < z
          · have hxz : x < z := lt_trans hxy hyz
            simp [charsCmp, hxz]
          · by_cases hzy : z < y
            · -- charsCmp (y::ys) (z::zs) = 1, contradiction
              simp [charsCmp, hyz, hzy] at hbc
            · have hyz' : y = z := le_antisymm (not_lt.mp hzy) (not_lt.mp hyz)
              have hxz : x < z := hyz' ▸ hxy
              simp [charsCmp, hxz]
        · by_cases hyx : y < x
          · simp [charsCmp, hxy, hyx] at hab
          · have hxy' : x = y := le_antisymm (not_lt.mp hyx) (not_lt.mp hxy)
            simp [charsCmp, hxy, hyx] at hab
            by_cases hyz : y < z
            · have hxz : x < z := hxy' ▸ hyz
              simp [charsCmp, hxz]
            · by_cases hzy : z < y
              · simp [charsCmp, hyz, hzy] at hbc
              · have hyz' : y = z := le_antisymm (not_lt.mp hzy) (not_lt.mp hyz)
                simp [charsCmp, hyz, hzy] at hbc
                have hxz1 : ¬ x < z := by rw [hxy', hyz']; exact lt_irrefl z
                have hxz2 : ¬ z < x := by rw [hxy', hyz']; exact lt_irrefl z
                simp [charsCmp, hxz1, hxz2]
                exact ih hab hbc

theorem strCmp_eq_zero_iff (a b : String) : strCmp a b = 0 ↔ a = b := by
  rw [strCmp, charsCmp_eq_zero_iff]
  constructor
  · intro h
    cases a with | mk da =>
    cases b with | mk db =>
    exact congrArg String.mk (by simpa [String.toList] using h)
  · intro h; rw [h]

theorem strCmp_swap (a b : String) : strCmp b a = -strCmp a b :=
  charsCmp_swap a.toList b.toList

theorem strCmp_lt_trans {a b c : String}
    (hab : strCmp a b < 0) (hbc : strCmp b c < 0) : strCmp a c < 0 :=
  charsCmp_lt_trans hab hbc



theorem fillCmp_neg_iff (x y : NormalizedFill) :
    fillCmp x y < 0 ↔
      (strCmp x.tradeDate y.tradeDate < 0 ∨
        (x.tradeDate = y.tradeDate ∧ x.side = Side.BUY ∧ y.side = Side.SELL)) := by
  by_cases hd : strCmp x.tradeDate y.tradeDate = 0
  · have hdd : x.tradeDate = y.tradeDate := (strCmp_eq_zero_iff _ _).mp hd
    have h0 : strCmp y.tradeDate y.tradeDate = 0 := (strCmp_eq_zero_iff _ _).mpr rfl
    by_cases hb : x.side = Side.BUY ∧ y.side = Side.SELL
    · simp [fillCmp, hdd, h0, hb]
    · by_cases hs : x.side = Side.SELL ∧ y.side = Side.BUY
      · simp [fillCmp, hdd, h0, hb, hs]
      · simp [fillCmp, hdd, h0, hb, hs]
  · simp [fillCmp, hd]
    intro hxy
    rw [hxy] at hd
    simp [strCmp_eq_zero_iff] at hd

theorem fillOrd_of_lt {x y : NormalizedFill} (h : fillCmp x y < 0) : fillOrd x y := by
  rcases (fillCmp_neg_iff x y).mp h with hlt | ⟨hdd, hbx, hsy⟩
  · refine ⟨le_of_lt hlt, fun hd2 => ?_⟩
    rw [hd2, (strCmp_eq_zero_iff _ _).mpr rfl] at hlt
    exact absurd hlt (lt_irrefl 0)
  · refine ⟨le_of_eq ((strCmp_eq_zero_iff _ _).mpr hdd), fun _ hc => ?_⟩
    rw [hbx] at hc
    exact Side.noConfusion hc.1

theorem fillOrd_of_not_lt {x y : NormalizedFill} (h : ¬ fillCmp x y < 0) : fillOrd y x := by
  rw [fillCmp_neg_iff] at h
  push_neg at h
  obtain ⟨h1, h2⟩ := h
  constructor
  · rw [strCmp_swap]
    omega
  · intro hdd hc
    exact (h2 hdd.symm hc.2) hc.1

theorem fillOrd_trans_lt {x y z : NormalizedFill}
    (hxy : fillCmp x y < 0) (hyz : fillOrd y z) : fillOrd x z := by
  obtain ⟨hle, himp⟩ := hyz
  rcases (fillCmp_neg_iff x y).mp hxy with hlt | ⟨hdd, hbx, hsy⟩
  · have hxz : strCmp x.tradeDate z.tradeDate < 0 := by
      rcases lt_or_eq_of_le hle with hlt2 | heq
      · exact strCmp_lt_trans hlt hlt2
      · have : y.tradeDate = z.tradeDate := (strCmp_eq_zero_iff _ _).mp heq
        rwa [this] at hlt
    refine ⟨le_of_lt hxz, fun hd2 => ?_⟩
    rw [hd2, (strCmp_eq_zero_iff _ _).mpr rfl] at hxz
    exact absurd hxz (lt_irrefl 0)
  · refine ⟨by rwa [hdd], fun _ hc => ?_⟩
    rw [hbx] at hc
    exact Side.noConfusion hc.1

theorem insertFill_mem {z x : NormalizedFill} {L : List NormalizedFill} :
    z ∈ insertFill x L ↔ z = x ∨ z ∈ L := by
  induction L with
  | nil => simp [insertFill]
  | cons y ys ih =>
    by_cases hc : fillCmp x y < 0
    · simp [insertFill, hc]
    · simp [insertFill, hc, ih]
      tauto

theorem insertFill_pairwise (x : NormalizedFill) (L : List NormalizedFill)
    (h : L.Pairwise fillOrd) : (insertFill x L).Pairwise fillOrd := by
  induction L with
  | nil => simp [insertFill]
  | cons y ys ih =>
    rw [List.pairwise_cons] at h
    obtain ⟨hy, hys⟩ := h
    by_cases hc : fillCmp x y < 0
    · rw [insertFill, if_pos hc, List.pairwise_cons]
      refine ⟨?_, List.pairwise_cons.mpr ⟨hy, hys⟩⟩
      intro z hz
      rcases List.mem_cons.mp hz with rfl | hz2
      · exact fillOrd_of_lt hc
      · exact fillOrd_trans_lt hc (hy z hz2)
    · rw [insertFill, if_neg hc, List.pairwise_cons]
      refine ⟨?_, ih hys⟩
      intro z hz
      rcases insertFill_mem.mp hz with rfl | hz2
      · exact fillOrd_of_not_lt hc
      · exact hy z hz2

theorem sortFills_pairwise (fills : List NormalizedFill) :
    (sortFills fills).Pairwise fillOrd := by
  suffices h : ∀ L : List NormalizedFill, L.Pairwise fillOrd →
      (fills.foldl (fun acc x => insertFill x acc) L).Pairwise fillOrd by
    exact h [] (List.Pairwise.nil)
  induction fills with
  | nil => exact fun L hL => hL
  | cons f fs ih =>
    intro L hL
    exact ih (insertFill f L) (insertFill_pairwise f L hL)


theorem insertFill_filter (d : String) (s : Side) (x : NormalizedFill)
    (L : List NormalizedFill) (hL : L.Pairwise fillOrd) :
    (insertFill x L).filter (fun f => f.tradeDate = d ∧ f.side = s)
      = L.filter (fun f => f.tradeDate = d ∧ f.side = s)
        ++ (if x.tradeDate = d ∧ x.side = s then [x] else []) := by
  induction L with
  | nil =>
    by_cases hp : x.tradeDate = d ∧ x.side = s <;> simp [insertFill, hp]
  | cons y ys ih =>
    rw [List.pairwise_cons] at hL
    obtain ⟨hy, hys⟩ := hL
    by_cases hc : fillCmp x y < 0
    · rw [insertFill, if_pos hc]
      by_cases hp : x.tradeDate = d ∧ x.side = s
      · have hempty : ∀ z ∈ y :: ys, ¬(z.tradeDate = d ∧ z.side = s) := by
          intro z hz hzp
          rcases List.mem_cons.mp hz with rfl | hz2
          · rcases (fillCmp_neg_iff x z).mp hc with hlt | ⟨hdd, hbx, hsy⟩
            · have h0 : strCmp x.tradeDate z.tradeDate = 0 :=
                (strCmp_eq_zero_iff _ _).mpr (hp.1.trans hzp.1.symm)
              omega
            · rw [hzp.2] at hsy
              rw [hp.2, hsy] at hbx
              exact Side.noConfusion hbx
          · have hyz := hy z hz2
            rcases (fillCmp_neg_iff x y).mp hc with hlt | ⟨hdd, hbx, hsy⟩
            · have h1 := hyz.1
              rw [hzp.1, ← hp.1, strCmp_swap] at h1
              omega
            · have hyd : y.tradeDate = z.tradeDate := by
                rw [← hdd, hp.1, hzp.1]
              have hzb : z.side = Side.BUY := by
                rw [hzp.2, ← hp.2, hbx]
              exact hyz.2 hyd ⟨hsy, hzb⟩
        rw [List.filter_cons_of_pos (by simpa using hp),
          List.filter_eq_nil_iff.mpr (by simpa using hempty)]
        simp [hp]
      · rw [List.filter_cons_of_neg (by simpa using hp)]
        simp [hp]
    · rw [insertFill, if_neg hc]
      by_cases hpy : y.tradeDate = d ∧ y.side = s
      · rw [List.filter_cons_of_pos (by simpa using hpy),
          List.filter_cons_of_pos (by simpa using hpy), ih hys, List.cons_append]
      · rw [List.filter_cons_of_neg (by simpa using hpy),
          List.filter_cons_of_neg (by simpa using hpy), ih hys]

theorem sortFills_filter (fills : List NormalizedFill) (d : String) (s : Side) :
    (sortFills fills).filter (fun f => f.tradeDate = d ∧ f.side = s)
      = fills.filter (fun f => f.tradeDate = d ∧ f.side = s) := by
  suffices h : ∀ L, L.Pairwise fillOrd →
      (fills.foldl (fun acc x => insertFill x acc) L).filter
          (fun f => f.tradeDate = d ∧ f.side = s)
        = L.filter (fun f => f.tradeDate = d ∧ f.side = s)
          ++ fills.filter (fun f => f.tradeDate = d ∧ f.side = s) by
    simpa [sortFills] using h [] List.Pairwise.nil
  induction fills with
  | nil => intro L hL; simp
  | cons f fs ih =>
    intro L hL
    rw [List.foldl_cons, ih (insertFill f L) (insertFill_pairwise f L hL),
      insertFill_filter d s f L hL]
    by_cases hp : f.tradeDate = d ∧ f.side = s <;>
      simp [List.filter_cons, hp, List.append_assoc]


theorem span_append {p : Char → Bool} (xs : List Char) (y : Char) (ys : List Char)
    (hxs : ∀ c ∈ xs, p c) (hy : ¬ p y = true) :
    (xs ++ y :: ys).takeWhile p = xs ∧ (xs ++ y :: ys).dropWhile p = y :: ys := by
  induction xs with
  | nil =>
    simp only [List.nil_append]
    rw [List.takeWhile_cons_of_neg (by simpa using hy),
      List.dropWhile_cons_of_neg (by simpa using hy)]
    exact ⟨rfl, rfl⟩
  | cons x xs ih =>
    have hx : p x := hxs x (List.mem_cons_self x xs)
    obtain ⟨h1, h2⟩ := ih (fun c hc => hxs c (List.mem_cons_of_mem x hc))
    simp only [List.cons_append]
    rw [List.takeWhile_cons_of_pos hx, List.dropWhile_cons_of_pos hx]
    exact ⟨by rw [h1], h2⟩

theorem span_all {p : Char → Bool} (xs : List Char) (hxs : ∀ c ∈ xs, p c) :
    xs.takeWhile p = xs ∧ xs.dropWhile p = [] := by
  induction xs with
  | nil => exact ⟨rfl, rfl⟩
  | cons x xs ih =>
    have hx : p x := hxs x (List.mem_cons_self x xs)
    obtain ⟨h1, h2⟩ := ih (fun c hc => hxs c (List.mem_cons_of_mem x hc))
    rw [List.takeWhile_cons_of_pos hx, List.dropWhile_cons_of_pos hx, h1]
    exact ⟨rfl, h2⟩

theorem sep_not_digit {c : Char} (h : isSepCh c = true) : ¬ isDigitCh c = true := by
  rcases (by simpa [isSepCh] using h : c = '/' ∨ c = '-' ∨ c = '.') with rfl | rfl | rfl <;>
    decide

theorem dropWhile_head_not {p : Char → Bool} {l : List Char} {y : Char} {ys : List Char}
    (h : l.dropWhile p = y :: ys) : ¬ p y = true := by
  induction l with
  | nil => simp at h
  | cons x xs ih =>
    by_cases hx : p x
    · rw [List.dropWhile_cons_of_pos hx] at h
      exact ih h
    · rw [List.dropWhile_cons_of_neg hx] at h
      cases h
      simpa using hx


theorem matchYMD_sound {cs y m d : List Char} (h : matchYMD cs = some (y, m, d)) :
    ∃ s1 s2, cs = y ++ s1 :: (m ++ s2 :: d) ∧
      (∀ c ∈ y, isDigitCh c) ∧ (∀ c ∈ m, isDigitCh c) ∧ (∀ c ∈ d, isDigitCh c) ∧
      2 ≤ y.length ∧ y.length ≤ 4 ∧ 1 ≤ m.length ∧ m.length ≤ 2 ∧
      1 ≤ d.length ∧ d.length ≤ 2 ∧ isSepCh s1 ∧ isSepCh s2 := by
  simp only [matchYMD] at h
  by_cases h1 : 2 ≤ (cs.takeWhile isDigitCh).length ∧ (cs.takeWhile isDigitCh).length ≤ 4
  swap
  · rw [if_neg h1] at h; exact Option.noConfusion h
  rw [if_pos h1] at h
  rcases hr1 : cs.dropWhile isDigitCh with _ | ⟨s1, r2⟩ <;> rw [hr1] at h
  · exact Option.noConfusion h
  dsimp only at h
  by_cases hs1 : isSepCh s1
  swap
  · rw [if_neg hs1] at h; exact Option.noConfusion h
  rw [if_pos hs1] at h
  by_cases h2 : 1 ≤ (r2.takeWhile isDigitCh).length ∧ (r2.takeWhile isDigitCh).length ≤ 2
  swap
  · rw [if_neg h2] at h; exact Option.noConfusion h
  rw [if_pos h2] at h
  rcases hr3 : r2.dropWhile isDigitCh with _ | ⟨s2, r4⟩ <;> rw [hr3] at h
  · exact Option.noConfusion h
  dsimp only at h
  by_cases hs2 : isSepCh s2
  swap
  · rw [if_neg hs2] at h; exact Option.noConfusion h
  rw [if_pos hs2] at h
  by_cases h3 : 1 ≤ (r4.takeWhile isDigitCh).length ∧ (r4.takeWhile isDigitCh).length ≤ 2 ∧
      r4.dropWhile isDigitCh = []
  swap
  · rw [if_neg h3] at h; exact Option.noConfusion h
  rw [if_pos h3] at h
  obtain ⟨hy, hm, hd⟩ : cs.takeWhile isDigitCh = y ∧ r2.takeWhile isDigitCh = m ∧
      r4.takeWhile isDigitCh = d := by
    injection h with h'
    injection h' with ha hb
    injection hb with hb hc
    exact ⟨ha, hb, hc⟩
  refine ⟨s1, s2, ?_, ?_, ?_, ?_, ?_, ?_, ?_, ?_, ?_, ?_, hs1, hs2⟩
  · have e1 : cs = y ++ s1 :: r2 := by
      rw [← hy, ← hr1, List.takeWhile_append_dropWhile]
    have e2 : r2 = m ++ s2 :: r4 := by
      rw [← hm, ← hr3, List.takeWhile_append_dropWhile]
    have e3 : r4 = d := by
      rw [← hd]
      conv_lhs => rw [← List.takeWhile_append_dropWhile isDigitCh r4]
      rw [h3.2.2, List.append_nil]
    rw [e1, e2, e3]
  · intro c hc; rw [← hy] at hc; exact List.mem_takeWhile_imp hc
  · intro c hc; rw [← hm] at hc; exact List.mem_takeWhile_imp hc
  · intro c hc; rw [← hd] at hc; exact List.mem_takeWhile_imp hc
  · rw [← hy]; exact h1.1
  · rw [← hy]; exact h1.2
  · rw [← hm]; exact h2.1
  · rw [← hm]; exact h2.2
  · rw [← hd]; exact h3.1
  · rw [← hd]; exact h3.2.1


theorem matchYMD_complete {y m d : List Char} {s1 s2 : Char}
    (hy : ∀ c ∈ y, isDigitCh c) (hm : ∀ c ∈ m, isDigitCh c) (hd : ∀ c ∈ d, isDigitCh c)
    (hly1 : 2 ≤ y.length) (hly2 : y.length ≤ 4)
    (hlm1 : 1 ≤ m.length) (hlm2 : m.length ≤ 2)
    (hld1 : 1 ≤ d.length) (hld2 : d.length ≤ 2)
    (hs1 : isSepCh s1) (hs2 : isSepCh s2) :
    matchYMD (y ++ s1 :: (m ++ s2 :: d)) = some (y, m, d) := by
  obtain ⟨ht1, hd1⟩ := span_append y s1 (m ++ s2 :: d) hy (sep_not_digit hs1)
  obtain ⟨ht2, hd2⟩ := span_append m s2 d hm (sep_not_digit hs2)
  obtain ⟨ht3, hd3⟩ := span_all d hd
  simp only [matchYMD, ht1, hd1]
  rw [if_pos ⟨hly1, hly2⟩]
  rw [if_pos hs1]
  simp only [ht2, hd2]
  rw [if_pos ⟨hlm1, hlm2⟩]
  rw [if_pos hs2]
  simp only [ht3, hd3]
  rw [if_pos ⟨hld1, hld2, trivial⟩]

theorem parseRow_accepts (headers : List String) (idx : Nat) (line : String)
    (td : String) (q p : ℚ)
    (hne : jsTrim line ≠ "")
    (hlen : ¬ (parseCSVLine (jsTrim line)).length < headers.length)
    (hdate : parseJapaneseDate (rawGet headers (parseCSVLine (jsTrim line)) "約定日") = some td)
    (hcode : rawGet headers (parseCSVLine (jsTrim line)) "銘柄コード" ≠ "")
    (hq : parseNumber (rawGet headers (parseCSVLine (jsTrim line)) "約定数量") = some q)
    (hq0 : ¬ q ≤ 0)
    (hp : parseNumber (rawGet headers (parseCSVLine (jsTrim line)) "約定単価") = some p)
    (hp0 : ¬ p < 0) :
    ∃ f, parseRow headers idx line = RowResult.ok f ∧
      f.fees = parseNumber (rawGet headers (parseCSVLine (jsTrim line)) "手数料/諸経費等") ∧
      f.tax = parseNumber (rawGet headers (parseCSVLine (jsTrim line)) "税額") := by
  rw [parseRow]
  rw [if_neg hne, if_neg hlen, hdate]
  dsimp only
  rw [if_neg hcode, hq]
  dsimp only
  rw [if_neg hq0, hp]
  dsimp only
  rw [if_neg hp0]
  exact ⟨_, rfl, rfl, rfl⟩

/-! ## Claim theorems -/

/-- **C9.** For every `RealizedTrade` list, `computeSummary`'s profit
factor equals `|total win / total loss|` when the total loss is nonzero;
when the total loss is zero it is `Infinity` if the total win is positive
and `null` otherwise, where total win and total loss sum the positive and
negative realized P&L values over the trades with non-null P&L. -/
theorem claim9_profit_factor (trades : List RealizedTrade) :
    (computeSummary trades).profitFactor =
      (let pnls := trades.filterMap RealizedTrade.realizedPnl
       let totalWin := (pnls.filter fun q => 0 < q).sum
       let totalLoss := (pnls.filter fun q => q < 0).sum
       if totalLoss ≠ 0 then some (JNum.val |totalWin / totalLoss|)
       else if 0 < totalWin then some JNum.inf else none) := by
  simp only [computeSummary]
  rw [filter_pnl_map (fun q => 0 < q), filter_pnl_map (fun q => q < 0)]

/-- **C10.** For every input text in which a header row is found,
`parseCSV` returns `totalRows = successRows + failedRows`,
`fills.length = successRows` and `errors.length = failedRows`; a blank
line after the header contributes to none of the counters (the row loop
skips it entirely). -/
theorem claim10_row_counters (text : String)
    (h : (findHeader 0 (splitLines text)).isSome) :
    ((parseCSV text).totalRows = (parseCSV text).successRows + (parseCSV text).failedRows ∧
      (parseCSV text).fills.length = (parseCSV text).successRows ∧
      (parseCSV text).errors.length = (parseCSV text).failedRows) ∧
    (∀ headers idx l ls, jsTrim l = "" →
      rowsLoop headers idx (l :: ls) = rowsLoop headers (idx + 1) ls) := by
  constructor
  · rcases heq : findHeader 0 (splitLines text) with _ | ⟨hi, headers, rest⟩
    · rw [heq] at h; simp at h
    · obtain ⟨h1, h2, h3, h4⟩ := rowsLoop_counts headers (hi + 1) rest
      refine ⟨?_, ?_, ?_⟩ <;> simp [parseCSV, heq, sortByDate_length, h1, h2, h3]
  · intro headers idx l ls hbl
    have hp : parseRow headers idx l = RowResult.blank := by
      simp [parseRow, hbl]
    simp [rowsLoop, hp]

/-- Witness for C10 at a concrete CSV text (header, one good row, one
blank line, one short row). -/
theorem claim10_row_counters_w :
    (findHeader 0 (splitLines
        "約定日,銘柄コード,約定数量,約定単価\n2024/1/5,1234,100,1000\n\nbad")).isSome = true ∧
    (parseCSV "約定日,銘柄コード,約定数量,約定単価\n2024/1/5,1234,100,1000\n\nbad").totalRows
      = (parseCSV "約定日,銘柄コード,約定数量,約定単価\n2024/1/5,1234,100,1000\n\nbad").successRows
        + (parseCSV "約定日,銘柄コード,約定数量,約定単価\n2024/1/5,1234,100,1000\n\nbad").failedRows :=
  ⟨rfl, (claim10_row_counters _ (by rfl)).1.1⟩

/-- **C7.** `parseJapaneseDate` accepts exactly the strings that, after
its cleaning step (full-width year/month markers normalized to `/`, the
day marker removed, the result trimmed), decompose as a 2-to-4-digit
year, a 1-or-2-digit month and a 1-or-2-digit day separated by `/`, `-`
or `.`, with month 1-12 and day 1-31 (no days-in-month check); a year
value below 100 (in particular every 2-digit year) is read as 2000 plus
the value, and the result is the year followed by zero-padded 2-digit
month and day, dash-separated; every non-match yields `none`. -/
theorem claim7_locale_date (s out : String) :
    parseJapaneseDate s = some out ↔
      ∃ ys ms ds s1 s2,
        cleanDate s = ys ++ s1 :: (ms ++ s2 :: ds) ∧
        (∀ c ∈ ys, isDigitCh c) ∧ (∀ c ∈ ms, isDigitCh c) ∧ (∀ c ∈ ds, isDigitCh c) ∧
        2 ≤ ys.length ∧ ys.length ≤ 4 ∧ 1 ≤ ms.length ∧ ms.length ≤ 2 ∧
        1 ≤ ds.length ∧ ds.length ≤ 2 ∧ isSepCh s1 ∧ isSepCh s2 ∧
        1 ≤ digitsVal ms ∧ digitsVal ms ≤ 12 ∧ 1 ≤ digitsVal ds ∧ digitsVal ds ≤ 31 ∧
        out = toString (if digitsVal ys < 100 then digitsVal ys + 2000 else digitsVal ys)
          ++ "-" ++ pad2 (digitsVal ms) ++ "-" ++ pad2 (digitsVal ds) := by
  constructor
  · intro h
    rw [parseJapaneseDate] at h
    rcases hm : matchYMD (cleanDate s) with _ | ⟨⟨ys, ms, ds⟩⟩ <;> rw [hm] at h
    · exact Option.noConfusion h
    dsimp only at h
    by_cases hb : digitsVal ms < 1 ∨ digitsVal ms > 12 ∨ digitsVal ds < 1 ∨ digitsVal ds > 31
    · rw [if_pos hb] at h; exact Option.noConfusion h
    rw [if_neg hb] at h
    push_neg at hb
    obtain ⟨se1, se2, hdec, hy, hmm, hd, l1, l2, l3, l4, l5, l6, hsp1, hsp2⟩ :=
      matchYMD_sound hm
    refine ⟨ys, ms, ds, se1, se2, hdec, hy, hmm, hd, l1, l2, l3, l4, l5, l6, hsp1, hsp2,
      hb.1, hb.2.1, hb.2.2.1, hb.2.2.2, ?_⟩
    injection h with h
    exact h.symm
  · rintro ⟨ys, ms, ds, se1, se2, hdec, hy, hmm, hd, l1, l2, l3, l4, l5, l6, hsp1, hsp2,
      b1, b2, b3, b4, hout⟩
    have hmatch : matchYMD (cleanDate s) = some (ys, ms, ds) := by
      rw [hdec]
      exact matchYMD_complete hy hmm hd l1 l2 l3 l4 l5 l6 hsp1 hsp2
    rw [parseJapaneseDate, hmatch]
    dsimp only
    rw [if_neg (by omega)]
    rw [hout]

/-- Witness for C7: the characterization instantiated at the Japanese-era
formatted date `2024年1月5日`. -/
theorem claim7_locale_date_w :
    ∃ ys ms ds s1 s2,
        cleanDate "2024年1月5日" = ys ++ s1 :: (ms ++ s2 :: ds) ∧
        (∀ c ∈ ys, isDigitCh c) ∧ (∀ c ∈ ms, isDigitCh c) ∧ (∀ c ∈ ds, isDigitCh c) ∧
        2 ≤ ys.length ∧ ys.length ≤ 4 ∧ 1 ≤ ms.length ∧ ms.length ≤ 2 ∧
        1 ≤ ds.length ∧ ds.length ≤ 2 ∧ isSepCh s1 ∧ isSepCh s2 ∧
        1 ≤ digitsVal ms ∧ digitsVal ms ≤ 12 ∧ 1 ≤ digitsVal ds ∧ digitsVal ds ≤ 31 ∧
        "2024-01-05" = toString (if digitsVal ys < 100 then digitsVal ys + 2000 else digitsVal ys)
          ++ "-" ++ pad2 (digitsVal ms) ++ "-" ++ pad2 (digitsVal ds) :=
  (claim7_locale_date "2024年1月5日" "2024-01-05").mp (by rfl)

/-- **C8.** Every unknown-value marker (empty, `-`, `--`, full-width dash)
parses to `null` in `parseNumber`; a marker (or any value) in an optional
numeric column never fails a row — whenever the required validations
(field count, trade date, symbol code, quantity, price) pass, the row is
accepted with its fees and tax set to whatever `parseNumber` returns for
the optional columns, in particular to `null` on a marker; and for every
input text in which a header row is found, the unknown-field counter of
`parseCSV` equals the number of accepted fills with null fees plus the
number of accepted fills with null tax (one increment per null fee and
one per null tax per accepted row). -/
theorem claim8_unknown_markers (text : String) :
    (parseNumber "" = none ∧ parseNumber "-" = none ∧ parseNumber "--" = none ∧
      parseNumber "―" = none) ∧
    (∀ (headers : List String) (idx : Nat) (line : String) (td : String) (q p : ℚ),
      jsTrim line ≠ "" →
      ¬ (parseCSVLine (jsTrim line)).length < headers.length →
      parseJapaneseDate (rawGet headers (parseCSVLine (jsTrim line)) "約定日") = some td →
      rawGet headers (parseCSVLine (jsTrim line)) "銘柄コード" ≠ "" →
      parseNumber (rawGet headers (parseCSVLine (jsTrim line)) "約定数量") = some q →
      ¬ q ≤ 0 →
      parseNumber (rawGet headers (parseCSVLine (jsTrim line)) "約定単価") = some p →
      ¬ p < 0 →
      ∃ f, parseRow headers idx line = RowResult.ok f ∧
        f.fees = parseNumber (rawGet headers (parseCSVLine (jsTrim line)) "手数料/諸経費等") ∧
        f.tax = parseNumber (rawGet headers (parseCSVLine (jsTrim line)) "税額")) ∧
    ((findHeader 0 (splitLines text)).isSome →
      (parseCSV text).unknownFieldCount
        = (parseCSV text).fills.countP (fun f => f.fees = none)
          + (parseCSV text).fills.countP (fun f => f.tax = none)) := by
  refine ⟨⟨rfl, rfl, rfl, rfl⟩, parseRow_accepts, fun h => ?_⟩
  rcases heq : findHeader 0 (splitLines text) with _ | ⟨hi, headers, rest⟩
  · rw [heq] at h; simp at h
  · obtain ⟨h1, h2, h3, h4⟩ := rowsLoop_counts headers (hi + 1) rest
    simp [parseCSV, heq, sortByDate_countP, h4]

/-- Witness for C8: the data row whose fee column holds `--` and whose tax
column holds a full-width dash is accepted with null fees and tax, and on
the two-line CSV built from it the unknown-field counter equals the two
null occurrences. -/
theorem claim8_unknown_markers_w :
    (∃ f, parseRow ["約定日", "銘柄コード", "約定数量", "約定単価", "手数料/諸経費等", "税額"] 1 "2024/1/5,1234,100,1000,--,―" = RowResult.ok f ∧
      f.fees = parseNumber (rawGet ["約定日", "銘柄コード", "約定数量", "約定単価", "手数料/諸経費等", "税額"] (parseCSVLine (jsTrim "2024/1/5,1234,100,1000,--,―")) "手数料/諸経費等") ∧
      f.tax = parseNumber (rawGet ["約定日", "銘柄コード", "約定数量", "約定単価", "手数料/諸経費等", "税額"] (parseCSVLine (jsTrim "2024/1/5,1234,100,1000,--,―")) "税額")) ∧
    parseNumber (rawGet ["約定日", "銘柄コード", "約定数量", "約定単価", "手数料/諸経費等", "税額"] (parseCSVLine (jsTrim "2024/1/5,1234,100,1000,--,―")) "手数料/諸経費等") = none ∧
    parseNumber (rawGet ["約定日", "銘柄コード", "約定数量", "約定単価", "手数料/諸経費等", "税額"] (parseCSVLine (jsTrim "2024/1/5,1234,100,1000,--,―")) "税額") = none ∧
    (findHeader 0 (splitLines "約定日,銘柄コード,約定数量,約定単価,手数料/諸経費等,税額\n2024/1/5,1234,100,1000,--,―")).isSome = true ∧
    (parseCSV "約定日,銘柄コード,約定数量,約定単価,手数料/諸経費等,税額\n2024/1/5,1234,100,1000,--,―").unknownFieldCount
      = (parseCSV "約定日,銘柄コード,約定数量,約定単価,手数料/諸経費等,税額\n2024/1/5,1234,100,1000,--,―").fills.countP (fun f => f.fees = none)
        + (parseCSV "約定日,銘柄コード,約定数量,約定単価,手数料/諸経費等,税額\n2024/1/5,1234,100,1000,--,―").fills.countP (fun f => f.tax = none) :=
  ⟨(claim8_unknown_markers "約定日,銘柄コード,約定数量,約定単価,手数料/諸経費等,税額\n2024/1/5,1234,100,1000,--,―").2.1 ["約定日", "銘柄コード", "約定数量", "約定単価", "手数料/諸経費等", "税額"] 1 "2024/1/5,1234,100,1000,--,―" "2024-01-05"
      ((1 : ℚ) * (((100 : ℕ) : ℚ) + ((0 : ℕ) : ℚ) / (10 : ℚ) ^ (0 : ℕ)))
      ((1 : ℚ) * (((1000 : ℕ) : ℚ) + ((0 : ℕ) : ℚ) / (10 : ℚ) ^ (0 : ℕ)))
      (by decide) (by decide) (by rfl) (by decide) (by rfl) (by norm_num) (by rfl)
      (by norm_num),
    rfl, rfl, rfl, (claim8_unknown_markers "約定日,銘柄コード,約定数量,約定単価,手数料/諸経費等,税額\n2024/1/5,1234,100,1000,--,―").2.2 (by rfl)⟩

/-- **C1.** FIFO matching: on the fill list BUY 100 @ 1000, then BUY 100 @
1500 on a later date, then SELL 150 @ 1300 on a still later date (one key,
all fees and tax zero), `calculateRealizedPnl` returns exactly one trade,
whose weighted-average buy price is `175000 / 150` and whose realized P&L
is `150 * 1300 - 175000 = 20000`; and in general a SELL consumes lots from
the front of its key's queue taking `min(remaining, front lot qty)` per
step — a front lot no larger than the remaining quantity is consumed
whole, its full quantity times its price is accumulated, and the lot is
dropped; a front lot larger than the remaining quantity is shrunk by the
matched quantity and the sell's remainder reaches zero. -/
theorem claim1_fifo_matching :
    (((calculateRealizedPnl [c1buy1, c1buy2, c1sell] []).trades.map
        fun t => (t.realizedPnl, t.buyPriceAvg)) = [(some 20000, some (175000 / 150))] ∧
      (calculateRealizedPnl [c1buy1, c1buy2, c1sell] []).missingCostSymbols = []) ∧
    (∀ (r : ℚ) (lot : FifoLot) (rest : List FifoLot), 0 < r → lot.qty ≤ r →
      consume r (lot :: rest)
        = ((consume (r - lot.qty) rest).1,
           lot.price * lot.qty + (consume (r - lot.qty) rest).2.1,
           (consume (r - lot.qty) rest).2.2)) ∧
    (∀ (r : ℚ) (lot : FifoLot) (rest : List FifoLot), 0 < r → r < lot.qty →
      consume r (lot :: rest)
        = (0, lot.price * r, ⟨lot.qty - r, lot.price, lot.fees⟩ :: rest)) := by
  refine ⟨⟨?_, ?_⟩, fun r lot rest hr hm => consume_drop_front r lot rest hr hm,
    fun r lot rest hr hm => consume_shrink_front r lot rest hr hm⟩
  · have hs : sortFills [c1buy1, c1buy2, c1sell] = [c1buy1, c1buy2, c1sell] := by decide
    have hc2 : consume 50 [(⟨100, 1500, some 0⟩ : FifoLot)]
        = (0, 1500 * 50, [⟨100 - 50, 1500, some 0⟩]) := by
      rw [consume_shrink_front] <;> norm_num
    have hc1 : consume 150 [(⟨100, 1000, some 0⟩ : FifoLot), ⟨100, 1500, some 0⟩]
        = (0, 1000 * 100 + 1500 * 50, [⟨100 - 50, 1500, some 0⟩]) := by
      rw [consume_drop_front] <;> norm_num [hc2]
    simp only [calculateRealizedPnl, hs, List.foldl]
    simp only [processFill, c1buy1, c1buy2, c1sell, fillKey, makeKey, initState, setLots]
    norm_num [hc1]
  · have hs : sortFills [c1buy1, c1buy2, c1sell] = [c1buy1, c1buy2, c1sell] := by decide
    have hc2 : consume 50 [(⟨100, 1500, some 0⟩ : FifoLot)]
        = (0, 1500 * 50, [⟨100 - 50, 1500, some 0⟩]) := by
      rw [consume_shrink_front] <;> norm_num
    have hc1 : consume 150 [(⟨100, 1000, some 0⟩ : FifoLot), ⟨100, 1500, some 0⟩]
        = (0, 1000 * 100 + 1500 * 50, [⟨100 - 50, 1500, some 0⟩]) := by
      rw [consume_drop_front] <;> norm_num [hc2]
    simp only [calculateRealizedPnl, hs, List.foldl]
    simp only [processFill, c1buy1, c1buy2, c1sell, fillKey, makeKey, initState, setLots]
    norm_num [hc1]

/-- Witness for C1: the general front-lot consumption equation applied at
a concrete sell quantity 150 against a front lot of quantity 100. -/
theorem claim1_fifo_matching_w :
    consume (150 : ℚ) [(⟨100, 1000, some 0⟩ : FifoLot)]
      = ((consume (150 - 100) []).1,
         1000 * 100 + (consume (150 - 100) []).2.1,
         (consume (150 - 100) []).2.2) :=
  claim1_fifo_matching.2.1 150 ⟨100, 1000, some 0⟩ [] (by norm_num) (by norm_num)

/-- **C2.** In every run of `calculateRealizedPnl`, a trade's
`realizedPnl` is `null` exactly when its `reasonIfNull` is `UNKNOWN_COST`;
and at the level of a single SELL step this happens exactly when a
positive quantity remains after consuming the key's available lots — a
condition independent of the fill's fees and tax, so unknown fees or tax
alone never produce a null P&L. -/
theorem claim2_null_iff_unknown_cost :
    (∀ (fills : List NormalizedFill) (ops : List OpeningPosition),
      ∀ t ∈ (calculateRealizedPnl fills ops).trades,
        (t.realizedPnl = none ↔ t.reasonIfNull = some NullReason.UNKNOWN_COST)) ∧
    (∀ (st : EngineState) (fill : NormalizedFill), fill.side = Side.SELL →
      ∃ t, (processFill st fill).trades = st.trades ++ [t] ∧
        (t.realizedPnl = none ↔ 0 < (consume fill.qty (st.lots (fillKey fill))).1) ∧
        (t.reasonIfNull = some NullReason.UNKNOWN_COST ↔
          0 < (consume fill.qty (st.lots (fillKey fill))).1)) := by
  constructor
  · intro fills ops t ht
    exact foldl_trades_ok (sortFills fills) (initState ops) (by simp [initState]) t ht
  · intro st fill hside
    obtain ⟨t, h1, h2, h3, _, _⟩ := sell_step st fill hside
    exact ⟨t, h1, h2, h3⟩

/-- Witness for C2: the trade emitted for a SELL with no available lots
has null P&L and reason `UNKNOWN_COST`. -/
theorem claim2_null_iff_unknown_cost_w :
    c2trade.realizedPnl = none ↔ c2trade.reasonIfNull = some NullReason.UNKNOWN_COST :=
  claim2_null_iff_unknown_cost.1 [c2fill] [] c2trade (by
    have h : (calculateRealizedPnl [c2fill] []).trades = [c2trade] := by
      norm_num [calculateRealizedPnl, sortFills, insertFill, initState, processFill,
        fillKey, makeKey, setLots, consume, c2fill, c2trade]
    rw [h]
    exact List.mem_singleton_self _)

/-- **C3 counterexample.** The claim as stated fails on the code: on the
same-date, same-key input `[SELL, OTHER, BUY]` the comparator is
inconsistent (the OTHER fill ties with both sides while BUY < SELL), so
ECMAScript leaves the sort order implementation-defined and the unchanged
input itself is an allowed result of `Array.prototype.sort` — a
processing order in which the SELL precedes the same-date same-key BUY. -/
theorem claim3_counterexample :
    allowedSortResult [c3sell, c3other, c3buy] [c3sell, c3other, c3buy] ∧
    ([c3sell, c3other, c3buy].get ⟨0, by decide⟩).side = Side.SELL ∧
    ([c3sell, c3other, c3buy].get ⟨2, by decide⟩).side = Side.BUY ∧
    ([c3sell, c3other, c3buy].get ⟨0, by decide⟩).tradeDate
      = ([c3sell, c3other, c3buy].get ⟨2, by decide⟩).tradeDate ∧
    fillKey ([c3sell, c3other, c3buy].get ⟨0, by decide⟩)
      = fillKey ([c3sell, c3other, c3buy].get ⟨2, by decide⟩) := by
  refine ⟨⟨List.Perm.refl _, fun hcons => ?_⟩, by decide, by decide, by decide, by decide⟩
  have h1 := hcons c3sell (by decide) c3other (by decide) c3buy (by decide)
    (by decide) (by decide)
  exact absurd h1 (by decide)

/-- **C3 (amended).** For every input on which the sort comparator is
consistent — equivalently, no trade date carries BUY, SELL and OTHER
fills simultaneously — every ECMAScript-allowed result of the sort
processes a same-date BUY before a same-date SELL (in particular for
same-key pairs), regardless of their relative input order; and in the
stable-sort result, fills of equal trade date and equal side keep their
relative input order (the filtered subsequence is unchanged). -/
theorem claim3_same_day_buy_first :
    (∀ (fills out : List NormalizedFill), allowedSortResult fills out →
      fillCmpConsistentOn fills →
      ∀ (i j : Fin out.length), i < j →
        (out.get i).tradeDate = (out.get j).tradeDate →
        fillKey (out.get i) = fillKey (out.get j) →
        ¬((out.get i).side = Side.SELL ∧ (out.get j).side = Side.BUY)) ∧
    (∀ (fills : List NormalizedFill) (d : String) (s : Side),
      (sortFills fills).filter (fun f => f.tradeDate = d ∧ f.side = s)
        = fills.filter (fun f => f.tradeDate = d ∧ f.side = s)) := by
  constructor
  · intro fills out hallow hcons i j hij hdate _ hc
    obtain ⟨_, himp⟩ := hallow
    have hout := himp hcons
    subst hout
    have hp := List.pairwise_iff_get.mp (sortFills_pairwise fills) i j hij
    exact hp.2 hdate hc
  · exact sortFills_filter

/-- Witness for C3: with the SELL listed before the same-date BUY in an
OTHER-free (hence comparator-consistent) input, the allowed sort result
has the BUY first. -/
theorem claim3_same_day_buy_first_w :
    ¬((([c3buy, c3sell] : List NormalizedFill).get ⟨0, by decide⟩).side = Side.SELL ∧
      (([c3buy, c3sell] : List NormalizedFill).get ⟨1, by decide⟩).side = Side.BUY) :=
  claim3_same_day_buy_first.1 [c3sell, c3buy] [c3buy, c3sell]
    ⟨List.Perm.swap c3sell c3buy [], fun _ => by decide⟩
    (by unfold fillCmpConsistentOn; decide) ⟨0, by decide⟩ ⟨1, by decide⟩
    (by decide) (by decide) (by decide)

/-- **C4.** Account-type isolation: processing any fill touches only its
own `(symbol code, account type)` key — both the lot queue and the
missing-cost entry of every other key are unchanged, at a single step and
over any fill sequence; and on the concrete example BUY(100 @ 1000,
account `A`) then SELL(100 @ 1200, account `B`) of the same symbol the
SELL matches nothing: its P&L is null with reason `UNKNOWN_COST` and the
shortfall is recorded under account `B`, not under `A`. -/
theorem claim4_account_isolation :
    (∀ (st : EngineState) (fill : NormalizedFill) (k' : String),
      k' ≠ fillKey fill →
      (processFill st fill).lots k' = st.lots k' ∧
        mcLookup (processFill st fill).missing k' = mcLookup st.missing k') ∧
    (∀ (fills : List NormalizedFill) (st : EngineState) (k' : String),
      (∀ f ∈ fills, fillKey f ≠ k') →
      (fills.foldl processFill st).lots k' = st.lots k' ∧
        mcLookup (fills.foldl processFill st).missing k' = mcLookup st.missing k') ∧
    ((calculateRealizedPnl [c4buy, c4sell] []).trades.map
        (fun t => (t.realizedPnl, t.reasonIfNull))
      = [(none, some NullReason.UNKNOWN_COST)] ∧
      (calculateRealizedPnl [c4buy, c4sell] []).missingCostSymbols
        = [⟨"1234", "テスト", 100, "B"⟩]) := by
  refine ⟨processFill_frame, foldl_frame, ?_, ?_⟩ <;> decide

/-- Witness for C4: a SELL under account `B` leaves the lot queue of the
same symbol under account `A` untouched. -/
theorem claim4_account_isolation_w :
    (processFill (initState []) c4sell).lots "1234::A" = (initState []).lots "1234::A" ∧
      mcLookup (processFill (initState []) c4sell).missing "1234::A"
        = mcLookup (initState []).missing "1234::A" :=
  claim4_account_isolation.1 (initState []) c4sell "1234::A" (by decide)

/-- **C5.** Opening positions: `initState` turns each opening position
into one lot (its quantity, its average cost, fee zero) prepended at the
front of its key's queue, before any fill is processed (the queue of a key
is the reversed list of that key's opening lots, and no trades or
diagnostics exist yet); consequently a run on a single SELL of `q` shares
at price `p` (fees `f`, tax `t`) against an opening position of `q` shares
at average cost `c` for the same key yields realized P&L
`(p - c) * q - f - t` and an empty missing-cost list. -/
theorem claim5_opening_position (code name acct date : String) (q c p f t : ℚ)
    (hq : 0 < q) :
    (∀ (ops : List OpeningPosition) (k : String),
      (initState ops).lots k
        = ((ops.filter fun op => makeKey op.symbolCode (some op.accountType) = k).map
            fun op => (⟨op.qty, op.avgCost, some 0⟩ : FifoLot)).reverse ∧
      (initState ops).trades = [] ∧ (initState ops).missing = []) ∧
    ((calculateRealizedPnl
        [{ tradeDate := date, symbolName := name, symbolCode := code, side := Side.SELL,
           qty := q, price := p, fees := some f, tax := some t, accountType := some acct }]
        [{ symbolCode := code, symbolName := name, qty := q, avgCost := c,
           accountType := acct }]).trades.map
      fun tr => tr.realizedPnl) = [some ((p - c) * q - f - t)] ∧
    (calculateRealizedPnl
        [{ tradeDate := date, symbolName := name, symbolCode := code, side := Side.SELL,
           qty := q, price := p, fees := some f, tax := some t, accountType := some acct }]
        [{ symbolCode := code, symbolName := name, qty := q, avgCost := c,
           accountType := acct }]).missingCostSymbols = [] := by
  have hcons : consume q [(⟨q, c, some 0⟩ : FifoLot)] = (0, c * q, []) := by
    simp [consume, hq, min_self, sub_self]
  refine ⟨fun ops k => ⟨initState_lots ops k, rfl, rfl⟩, ?_, ?_⟩
  · simp [calculateRealizedPnl, sortFills, insertFill, initState, processFill,
      fillKey, makeKey, setLots, hcons, Option.getD]
    ring
  · simp [calculateRealizedPnl, sortFills, insertFill, initState, processFill,
      fillKey, makeKey, setLots, hcons, Option.getD]

/-- Witness for C5 at concrete values: SELL 100 @ 1200 (fees 5, tax 7)
against an opening position of 100 shares at average cost 1000. -/
theorem claim5_opening_position_w :
    ((calculateRealizedPnl
        [{ tradeDate := "2024-01-12", symbolName := "X", symbolCode := "1234",
           side := Side.SELL, qty := 100, price := 1200, fees := some 5, tax := some 7,
           accountType := some "特定" }]
        [{ symbolCode := "1234", symbolName := "X", qty := 100, avgCost := 1000,
           accountType := "特定" }]).trades.map
      fun tr => tr.realizedPnl) = [some ((1200 - 1000) * 100 - 5 - 7)] :=
  (claim5_opening_position "1234" "X" "特定" "2024-01-12" 100 1000 1200 5 7
    (by norm_num)).2.1

/-- **C6.** A fully matched SELL (no quantity remaining after consuming
lots) yields realized P&L equal to sell price times quantity, minus the
accumulated matched lot cost, minus the fill's fees with null replaced by
zero, minus its tax with null replaced by zero; and the trade's
`feesEstimated` flag is true exactly when the fee or the tax of that sell
fill was null. -/
theorem claim6_pnl_formula (st : EngineState) (fill : NormalizedFill)
    (hside : fill.side = Side.SELL)
    (hfull : ¬ 0 < (consume fill.qty (st.lots (fillKey fill))).1) :
    ∃ t, (processFill st fill).trades = st.trades ++ [t] ∧
      t.realizedPnl = some (fill.price * fill.qty
        - (consume fill.qty (st.lots (fillKey fill))).2.1
        - fill.fees.getD 0 - fill.tax.getD 0) ∧
      (t.feesEstimated = true ↔ (fill.fees = none ∨ fill.tax = none)) := by
  obtain ⟨t, h1, _, _, h4, h5⟩ := sell_step st fill hside
  exact ⟨t, h1, h4 hfull, h5⟩

/-- Witness for C6: a SELL with unknown fees and tax against a fully
covering BUY lot still gets a non-null P&L and `feesEstimated = true`. -/
theorem claim6_pnl_formula_w :
    ∃ t, (processFill (processFill (initState []) c6buy) c6sell).trades
        = (processFill (initState []) c6buy).trades ++ [t] ∧
      t.realizedPnl = some (c6sell.price * c6sell.qty
        - (consume c6sell.qty ((processFill (initState []) c6buy).lots (fillKey c6sell))).2.1
        - c6sell.fees.getD 0 - c6sell.tax.getD 0) ∧
      (t.feesEstimated = true ↔ (c6sell.fees = none ∨ c6sell.tax = none)) :=
  claim6_pnl_formula (processFill (initState []) c6buy) c6sell (by decide) (by
    norm_num [consume, c6sell, c6buy, processFill, initState, fillKey, makeKey,
      setLots, min_self, sub_self])

end Torihiki
